import Mathlib

/-!
Shallow embedding of `sync_images.py` (hfxbikeparking): an S3 image-sync
pass that enumerates `.jpg`/`.jpeg` files in a directory, classifies each
as new/modified/unchanged against a SQLite state table, uploads the ones
that need it, records state after successful uploads, and reconciles
records whose local file has disappeared.

Modelling conventions:
- file contents are byte lists (`List Nat`); the MD5 digest is idealised as
  the absorbed byte stream (`md5Update` is the hashlib `update`), which keeps
  the source's chunked-reading structure (`get_file_hash`) verifiable;
- the SQLite `file_state` table is an association list keyed by filepath,
  with insert-or-replace (`dbPut`) and delete (`dbDelete`) mirroring the
  SQL statements;
- fallible external effects are oracles: `Env.s3Ok` says whether the S3
  transfer for a key succeeds, `Env.dbOk` whether the insert-or-replace
  commit after an upload succeeds, and `DirEntry.readable` whether hashing
  the file raises (the per-file `try`/`except` in `sync_images` and the
  `try`/`except` inside `upload_to_s3` become explicit branching);
- `st_mtime` (a Python float) is modelled as `Int`: only equality of stored
  versus current values matters to the program.
-/

namespace HfxSync

/-- A row of the `file_state` table (column `uploaded_at` omitted: it is
never read back by the program). -/
structure FileRecord where
  file_hash : List Nat
  file_size : Nat
  last_modified : Int
  s3_key : String
deriving DecidableEq

/-- The `file_state` table: association list keyed by filepath
(`filepath TEXT PRIMARY KEY`). -/
abbrev Store := List (String × FileRecord)

/-- `SELECT ... FROM file_state WHERE filepath = ?` -/
def dbGet (store : Store) (p : String) : Option FileRecord :=
  (store.find? (fun e => e.1 == p)).map (fun e => e.2)

/-- `DELETE FROM file_state WHERE filepath = ?` -/
def dbDelete (store : Store) (p : String) : Store :=
  store.filter (fun e => !(e.1 == p))

/-- `INSERT OR REPLACE INTO file_state ... VALUES (?, ?, ?, ?, ?)` -/
def dbPut (store : Store) (p : String) (r : FileRecord) : Store :=
  (p, r) :: dbDelete store p

/-- One directory entry as seen by `Path.iterdir()`: its name, whether it
is a regular file, whether reading it for hashing succeeds, its bytes, and
the `st_size` / `st_mtime` metadata from `stat()`. -/
structure DirEntry where
  name : String
  is_file : Bool
  readable : Bool
  content : List Nat
  size : Nat
  mtime : Int
deriving DecidableEq

/-- `IMAGE_EXTENSIONS = {'.jpg', '.jpeg', '.JPG', '.JPEG'}` -/
def IMAGE_EXTENSIONS : List String :=
  [".jpg", ".jpeg", ".JPG", ".JPEG"]

/-- Index of the last `'.'` in a character list, if any. -/
def lastDotIdx (l : List Char) : Option Nat :=
  match l.reverse.findIdx? (fun c => c == '.') with
  | none => none
  | some j => some (l.length - 1 - j)

/-- `pathlib.PurePath.suffix` of a file name: the final extension with its
dot, or `""` when the last dot is leading, trailing, or absent. -/
def pySuffix (name : String) : String :=
  match lastDotIdx name.data with
  | none => ""
  | some i =>
    if 0 < i ∧ i + 1 < name.data.length then String.mk (name.data.drop i) else ""

/-- Python `str.lower()` (ASCII letters, which is all the program compares). -/
def strLower (s : String) : String :=
  String.mk (s.data.map Char.toLower)

/-- Python string comparison: lexicographic by code point. -/
def charListLe : List Char → List Char → Bool
  | [], _ => true
  | _ :: _, [] => false
  | a :: as, b :: bs =>
    if a.toNat < b.toNat then true
    else if b.toNat < a.toNat then false
    else charListLe as bs

/-- Python `str` `<=` on two names (`sorted` compares `Path`s by their
parts; within a single directory that is string comparison of the names). -/
def nameLe (a b : String) : Bool :=
  charListLe a.data b.data

/-- `get_image_files`: regular files in the directory whose lower-cased
suffix is in `IMAGE_EXTENSIONS`, then `sorted(...)` (lexicographic by path;
within one directory that is lexicographic by name). -/
def get_image_files (fs : List DirEntry) : List DirEntry :=
  List.insertionSort (fun a b => nameLe a.name b.name = true)
    (fs.filter (fun e => e.is_file && decide (strLower (pySuffix e.name) ∈ IMAGE_EXTENSIONS)))

/-- The chunks delivered by `iter(lambda: f.read(n), b"")`, structurally
recursive on a fuel bound (each non-empty read consumes at least one byte,
so `l.length` reads always reach the `b""` sentinel). -/
def chunksOfAux (n : Nat) : Nat → List Nat → List (List Nat)
  | 0, _ => []
  | _, [] => []
  | fuel + 1, l => l.take n :: chunksOfAux n fuel (l.drop n)

/-- The chunks delivered by `iter(lambda: f.read(n), b"")`. -/
def chunksOf (n : Nat) (l : List Nat) : List (List Nat) :=
  chunksOfAux n l.length l

/-- `hashlib.md5().update(chunk)`: absorb a chunk into the digest state
(idealised digest = the absorbed byte stream). -/
def md5Update (st chunk : List Nat) : List Nat :=
  st ++ chunk

/-- `get_file_hash`: fold the 4096-byte chunks of the file through the
digest state and return the digest. -/
def get_file_hash (content : List Nat) : List Nat :=
  (chunksOf 4096 content).foldl md5Update []

/-- The three-way classification the spec describes; `needs_upload` encodes
it as (new ∨ modified, hash). -/
inductive Classification where
  | New
  | Modified
  | Unchanged
deriving DecidableEq

/-- `needs_upload`: always hash the file, look up the stored row, report
(new-or-modified?, current hash). -/
def needs_upload (store : Store) (f : DirEntry) : Bool × List Nat :=
  match dbGet store f.name with
  | none => (true, get_file_hash f.content)
  | some r =>
    if get_file_hash f.content ≠ r.file_hash ∨ f.size ≠ r.file_size ∨
        f.mtime ≠ r.last_modified then
      (true, get_file_hash f.content)
    else
      (false, get_file_hash f.content)

/-- The same decision tree as `needs_upload`, with the three outcomes kept
apart (the `# New file` branch versus the changed branch). -/
def classify (store : Store) (f : DirEntry) : Classification :=
  match dbGet store f.name with
  | none => Classification.New
  | some r =>
    if get_file_hash f.content ≠ r.file_hash ∨ f.size ≠ r.file_size ∨
        f.mtime ≠ r.last_modified then
      Classification.Modified
    else
      Classification.Unchanged

/-- External-effect oracles for one pass: whether the S3 transfer for a key
succeeds, and whether the SQLite insert-or-replace commit succeeds. -/
structure Env where
  s3Ok : String → Bool
  dbOk : String → Bool

/-- The row written after a successful upload of `f`: current hash, current
`stat()` metadata, and the S3 key (`filepath.name`). -/
def currentRecordOf (f : DirEntry) : FileRecord :=
  { file_hash := get_file_hash f.content
    file_size := f.size
    last_modified := f.mtime
    s3_key := f.name }

/-- `upload_to_s3`: transfer, then insert-or-replace and commit; any
exception inside the `try` is caught and reported as `False`, leaving the
table unchanged for that path. -/
def upload_to_s3 (env : Env) (store : Store) (f : DirEntry) (file_hash : List Nat) :
    Store × Bool :=
  if env.s3Ok f.name then
    if env.dbOk f.name then
      (dbPut store f.name
        { file_hash := file_hash, file_size := f.size, last_modified := f.mtime,
          s3_key := f.name }, true)
    else (store, false)
  else (store, false)

/-- The per-pass summary counters of `sync_images`. -/
structure Summary where
  uploaded : Nat
  skipped : Nat
  failed : Nat
deriving DecidableEq

/-- The body of the `for filepath in image_files` loop of `sync_images`,
with the surrounding `try`/`except` made explicit: an unreadable file
raises inside `needs_upload` and is counted failed. -/
def processFile (env : Env) (acc : Store × Summary) (f : DirEntry) : Store × Summary :=
  if f.readable then
    let r := needs_upload acc.1 f
    if r.1 then
      let u := upload_to_s3 env acc.1 f r.2
      if u.2 then (u.1, { acc.2 with uploaded := acc.2.uploaded + 1 })
      else (u.1, { acc.2 with failed := acc.2.failed + 1 })
    else (acc.1, { acc.2 with skipped := acc.2.skipped + 1 })
  else (acc.1, { acc.2 with failed := acc.2.failed + 1 })

/-- `sync_images`: fold the loop body over the sorted candidates, starting
from zeroed counters. -/
def sync_images (env : Env) (fs : List DirEntry) (store : Store) : Store × Summary :=
  (get_image_files fs).foldl (processFile env) (store, ⟨0, 0, 0⟩)

/-- `Path(db_filepath).exists()` for the paths the program stores: the
entry is present in the directory listing (file or not). -/
def fileExists (fs : List DirEntry) (p : String) : Bool :=
  fs.any (fun e => e.name == p)

/-- `cleanup_deleted_files`: read all tracked paths, then delete every row
whose path no longer exists. -/
def cleanup_deleted_files (fs : List DirEntry) (store : Store) : Store :=
  let db_files := store.map (fun e => e.1)
  db_files.foldl (fun st p => if fileExists fs p then st else dbDelete st p) store

/-- One full pass as `main` drives it: reconcile deletions first, then sync. -/
def run_pass (env : Env) (fs : List DirEntry) (store : Store) : Store × Summary :=
  sync_images env fs (cleanup_deleted_files fs store)

/-- `main`'s exit status: 1 on setup failure (constructor raises) or
`KeyboardInterrupt`, else 1 iff any file failed, else 0. -/
def mainExit (setupOk interrupted : Bool) (env : Env) (fs : List DirEntry)
    (store : Store) : Nat :=
  if setupOk = false then 1
  else if interrupted = true then 1
  else if 0 < (run_pass env fs store).2.failed then 1 else 0

/-- The record at `f`'s path agrees with `f`'s current hash, size and mtime. -/
def recordMatches (st : Store) (f : DirEntry) : Prop :=
  ∃ r, dbGet st f.name = some r ∧ r.file_hash = get_file_hash f.content ∧
    r.file_size = f.size ∧ r.last_modified = f.mtime

/-- Outcome predicate: the loop body uploads `c` and records it. -/
def uploadsB (env : Env) (st : Store) (c : DirEntry) : Bool :=
  c.readable && (needs_upload st c).1 && env.s3Ok c.name && env.dbOk c.name

/-- Outcome predicate: the loop body skips `c` as unchanged. -/
def skipsB (st : Store) (c : DirEntry) : Bool :=
  c.readable && !(needs_upload st c).1

/-- Outcome predicate: the loop body counts `c` as failed. -/
def failsB (env : Env) (st : Store) (c : DirEntry) : Bool :=
  !c.readable || ((needs_upload st c).1 && !(env.s3Ok c.name && env.dbOk c.name))

/-! Concrete data used to instantiate the theorems. -/

/-- A readable 1-byte image file `a.jpg`. -/
def exA : DirEntry :=
  { name := "a.jpg", is_file := true, readable := true, content := [0], size := 1, mtime := 10 }

/-- A readable 2-byte image file `b.jpg`. -/
def exB : DirEntry :=
  { name := "b.jpg", is_file := true, readable := true, content := [1, 2], size := 2, mtime := 20 }

/-- A readable image file `c.jpg`. -/
def exC : DirEntry :=
  { name := "c.jpg", is_file := true, readable := true, content := [3], size := 1, mtime := 30 }

/-- An unreadable image file: hashing it raises. -/
def exBad : DirEntry :=
  { name := "bad.jpg", is_file := true, readable := false, content := [5], size := 1, mtime := 50 }

/-- A directory with two image files. -/
def exFs : List DirEntry := [exA, exB]

/-- A directory in which `c.jpg` has reappeared. -/
def exFs2 : List DirEntry := [exA, exB, exC]

/-- A directory with one good and one unreadable image file. -/
def exFs3 : List DirEntry := [exA, exBad]

/-- A stored record for `a.jpg` whose hash disagrees with the file's current
content while size and mtime agree. -/
def exRecA : FileRecord :=
  { file_hash := [7], file_size := 1, last_modified := 10, s3_key := "a.jpg" }

/-- A store tracking only `a.jpg`. -/
def exStoreA : Store := [("a.jpg", exRecA)]

/-- A stale record for `c.jpg` (the file is gone from `exFs`). -/
def exRecC : FileRecord :=
  { file_hash := [9], file_size := 9, last_modified := 99, s3_key := "c.jpg" }

/-- A store tracking only the vanished `c.jpg`. -/
def exStoreC : Store := [("c.jpg", exRecC)]

/-- Every external operation succeeds. -/
def envAllOk : Env := ⟨fun _ => true, fun _ => true⟩

/-- S3 transfers succeed, but the state-store insert for `a.jpg` fails. -/
def envDbFailA : Env := ⟨fun _ => true, fun p => !(p == "a.jpg")⟩

/-! ### Basic lemmas about the state-store operations -/

theorem dbGet_cons (e : String × FileRecord) (st : Store) (q : String) :
    dbGet (e :: st) q = if e.1 = q then some e.2 else dbGet st q := by
  by_cases h : e.1 = q
  · simp [dbGet, h]
  · simp [dbGet, h]

theorem dbGet_dbDelete (st : Store) (p q : String) :
    dbGet (dbDelete st p) q = if q = p then none else dbGet st q := by
  induction st with
  | nil => simp [dbGet, dbDelete]
  | cons e st ih =>
    unfold dbDelete at ih ⊢
    rw [List.filter_cons]
    by_cases hep : e.1 = p
    · rw [if_neg (by simp [hep]), ih, dbGet_cons]
      by_cases hq : q = p
      · rw [if_pos hq, if_pos hq]
      · have heq : ¬ e.1 = q := fun h => hq (h.symm.trans hep)
        rw [if_neg hq, if_neg hq, if_neg heq]
    · rw [if_pos (by simp [hep]), dbGet_cons, ih, dbGet_cons]
      by_cases hq : q = p
      · have heq : ¬ e.1 = q := fun h => hep (h.trans hq)
        rw [if_neg heq, if_pos hq, if_pos hq]
      · rw [if_neg hq, if_neg hq]

theorem dbGet_dbPut (st : Store) (p : String) (r : FileRecord) (q : String) :
    dbGet (dbPut st p r) q = if q = p then some r else dbGet st q := by
  unfold dbPut
  rw [dbGet_cons, dbGet_dbDelete]
  by_cases h : q = p
  · rw [if_pos h.symm, if_pos h]
  · have h2 : ¬ p = q := fun hp => h hp.symm
    rw [if_neg h2, if_neg h, if_neg h]

/-! ### The classification decision -/

theorem needs_upload_snd (st : Store) (f : DirEntry) :
    (needs_upload st f).2 = get_file_hash f.content := by
  unfold needs_upload
  cases h : dbGet st f.name
  · rfl
  · simp only []
    split <;> rfl

theorem needs_upload_congr (st1 st2 : Store) (f : DirEntry)
    (h : dbGet st1 f.name = dbGet st2 f.name) :
    needs_upload st1 f = needs_upload st2 f := by
  unfold needs_upload
  rw [h]

theorem classify_congr (st1 st2 : Store) (f : DirEntry)
    (h : dbGet st1 f.name = dbGet st2 f.name) :
    classify st1 f = classify st2 f := by
  unfold classify
  rw [h]

theorem classify_eq_New_iff (st : Store) (f : DirEntry) :
    classify st f = Classification.New ↔ dbGet st f.name = none := by
  unfold classify
  cases h : dbGet st f.name
  · simp
  · simp only []
    split <;> simp

theorem classify_eq_Unchanged_iff (st : Store) (f : DirEntry) :
    classify st f = Classification.Unchanged ↔ recordMatches st f := by
  unfold classify recordMatches
  cases h : dbGet st f.name
  · simp
  · rename_i r
    split
    · rename_i hd
      exact absurd hd (by simp)
    · rename_i r2 hd
      injection hd with hd2
      subst hd2
      split
      · rename_i hdiff
        constructor
        · intro hcon
          exact absurd hcon (by simp)
        · rintro ⟨r', hr', h1, h2, h3⟩
          injection hr' with hrr
          subst hrr
          rcases hdiff with hd | hd | hd
          · exact absurd h1.symm hd
          · exact absurd h2.symm hd
          · exact absurd h3.symm hd
      · rename_i hdiff
        push_neg at hdiff
        exact ⟨fun _ => ⟨r, rfl, hdiff.1.symm, hdiff.2.1.symm, hdiff.2.2.symm⟩, fun _ => rfl⟩

theorem needs_upload_false_iff (st : Store) (f : DirEntry) :
    (needs_upload st f).1 = false ↔ classify st f = Classification.Unchanged := by
  unfold needs_upload classify
  cases h : dbGet st f.name
  · simp
  · simp only []
    split <;> simp

theorem needs_upload_true_of_none (st : Store) (f : DirEntry)
    (h : dbGet st f.name = none) : (needs_upload st f).1 = true := by
  unfold needs_upload
  rw [h]

/-! ### The chunked digest -/

theorem chunksOfAux_foldl (n : Nat) (hn : 0 < n) :
    ∀ (fuel : Nat) (l : List Nat), l.length ≤ fuel →
      ∀ acc, (chunksOfAux n fuel l).foldl md5Update acc = acc ++ l := by
  intro fuel
  induction fuel with
  | zero =>
    intro l hl acc
    have hl0 : l = [] := List.eq_nil_of_length_eq_zero (Nat.le_zero.mp hl)
    subst hl0
    simp [chunksOfAux]
  | succ fuel ih =>
    intro l hl acc
    rcases eq_or_ne l [] with rfl | hne
    · simp [chunksOfAux]
    · obtain ⟨a, l2, rfl⟩ := List.exists_cons_of_ne_nil hne
      rw [show chunksOfAux n (fuel + 1) (a :: l2) =
            (a :: l2).take n :: chunksOfAux n fuel ((a :: l2).drop n) from rfl]
      have hlen : ((a :: l2).drop n).length ≤ fuel := by
        rw [List.length_drop]
        simp only [List.length_cons] at hl ⊢
        omega
      rw [List.foldl_cons, ih _ hlen]
      unfold md5Update
      rw [List.append_assoc, List.take_append_drop]

theorem chunksOf_foldl_eq (n : Nat) (hn : 0 < n) (l : List Nat) :
    (chunksOf n l).foldl md5Update [] = l := by
  simpa using chunksOfAux_foldl n hn l.length l (le_refl _) []

theorem get_file_hash_eq (content : List Nat) : get_file_hash content = content := by
  unfold get_file_hash
  exact chunksOf_foldl_eq 4096 (by norm_num) content

/-! ### Lower-casing cannot produce an upper-case letter -/

theorem char_toNat_ofNat {n : Nat} (h : n < 55296) : (Char.ofNat n).toNat = n := by
  have hv : n.isValidChar := Or.inl h
  rw [Char.ofNat, dif_pos hv]
  simp [Char.ofNatAux, Char.toNat, UInt32.toNat]

theorem toLower_ne_J (c : Char) : Char.toLower c ≠ 'J' := by
  show (if c.toNat ≥ 65 ∧ c.toNat ≤ 90 then Char.ofNat (c.toNat + 32) else c) ≠ 'J'
  by_cases h : c.toNat ≥ 65 ∧ c.toNat ≤ 90
  · rw [if_pos h]
    intro he
    have h2 := char_toNat_ofNat (n := c.toNat + 32) (by omega)
    rw [he] at h2
    have h3 : ('J' : Char).toNat = 74 := by decide
    omega
  · rw [if_neg h]
    intro he
    subst he
    exact h (by decide)

theorem map_toLower_ne (l t : List Char) : l.map Char.toLower ≠ '.' :: 'J' :: t := by
  intro h
  cases l with
  | nil => simp at h
  | cons a l2 =>
    rw [List.map_cons] at h
    injection h with h1 h2
    cases l2 with
    | nil => simp at h2
    | cons b l3 =>
      rw [List.map_cons] at h2
      injection h2 with h3 h4
      exact toLower_ne_J b h3

theorem strLower_mem_iff (s : String) :
    strLower s ∈ IMAGE_EXTENSIONS ↔ strLower s = ".jpg" ∨ strLower s = ".jpeg" := by
  unfold IMAGE_EXTENSIONS
  constructor
  · intro h
    simp only [List.mem_cons, List.not_mem_nil, or_false] at h
    rcases h with h | h | h | h
    · exact Or.inl h
    · exact Or.inr h
    · exfalso
      have hd := congrArg String.data h
      exact map_toLower_ne s.data ['P', 'G'] hd
    · exfalso
      have hd := congrArg String.data h
      exact map_toLower_ne s.data ['P', 'E', 'G'] hd
  · intro h
    rcases h with h | h <;> rw [h] <;> simp

/-! ### Candidate enumeration -/

theorem charListLe_total : ∀ as bs : List Char,
    charListLe as bs = true ∨ charListLe bs as = true := by
  intro as
  induction as with
  | nil =>
    intro bs
    exact Or.inl rfl
  | cons a as ih =>
    intro bs
    cases bs with
    | nil => exact Or.inr rfl
    | cons b bs =>
      simp only [charListLe]
      by_cases hab : a.toNat < b.toNat
      · exact Or.inl (by rw [if_pos hab])
      · by_cases hba : b.toNat < a.toNat
        · exact Or.inr (by rw [if_pos hba])
        · rw [if_neg hab, if_neg hba, if_neg hba, if_neg hab]
          exact ih bs

theorem charListLe_trans : ∀ as bs cs : List Char,
    charListLe as bs = true → charListLe bs cs = true → charListLe as cs = true := by
  intro as
  induction as with
  | nil =>
    intro bs cs _ _
    rfl
  | cons a as ih =>
    intro bs cs h1 h2
    cases bs with
    | nil => simp [charListLe] at h1
    | cons b bs =>
      cases cs with
      | nil => simp [charListLe] at h2
      | cons c cs =>
        simp only [charListLe] at h1 h2 ⊢
        by_cases hac : a.toNat < c.toNat
        · rw [if_pos hac]
        · rw [if_neg hac]
          by_cases hca : c.toNat < a.toNat
          · rw [if_pos hca]
            exfalso
            by_cases hab : a.toNat < b.toNat
            · by_cases hbc : b.toNat < c.toNat
              · omega
              · by_cases hcb : c.toNat < b.toNat
                · rw [if_neg hbc, if_pos hcb] at h2
                  simp at h2
                · omega
            · by_cases hba : b.toNat < a.toNat
              · rw [if_neg hab, if_pos hba] at h1
                simp at h1
              · by_cases hbc : b.toNat < c.toNat
                · omega
                · by_cases hcb : c.toNat < b.toNat
                  · rw [if_neg hbc, if_pos hcb] at h2
                    simp at h2
                  · omega
          · rw [if_neg hca]
            by_cases hab : a.toNat < b.toNat
            · have hcb : c.toNat < b.toNat := by omega
              rw [if_neg (by omega), if_pos hcb] at h2
              simp at h2
            · by_cases hba : b.toNat < a.toNat
              · rw [if_neg hab, if_pos hba] at h1
                simp at h1
              · rw [if_neg hab, if_neg hba] at h1
                rw [if_neg (by omega), if_neg (by omega)] at h2
                exact ih bs cs h1 h2

instance : IsTotal DirEntry (fun a b => nameLe a.name b.name = true) :=
  ⟨fun a b => charListLe_total a.name.data b.name.data⟩

instance : IsTrans DirEntry (fun a b => nameLe a.name b.name = true) :=
  ⟨fun _ _ _ h1 h2 => charListLe_trans _ _ _ h1 h2⟩

theorem mem_get_image_files (fs : List DirEntry) (e : DirEntry) :
    e ∈ get_image_files fs ↔
      e ∈ fs ∧ e.is_file = true ∧
        (strLower (pySuffix e.name) = ".jpg" ∨ strLower (pySuffix e.name) = ".jpeg") := by
  unfold get_image_files
  rw [List.mem_insertionSort, List.mem_filter]
  simp only [Bool.and_eq_true, decide_eq_true_eq]
  rw [strLower_mem_iff]

theorem get_image_files_sorted (fs : List DirEntry) :
    List.Sorted (fun a b : DirEntry => nameLe a.name b.name = true) (get_image_files fs) := by
  unfold get_image_files
  exact List.sorted_insertionSort _ _

theorem fileExists_of_mem {fs : List DirEntry} {e : DirEntry} (h : e ∈ fs) :
    fileExists fs e.name = true := by
  unfold fileExists
  rw [List.any_eq_true]
  exact ⟨e, h, by simp⟩

theorem name_ne_of_not_mem_map {l : List DirEntry} {p : String}
    (h : p ∉ l.map DirEntry.name) {c : DirEntry} (hc : c ∈ l) : c.name ≠ p :=
  fun he => h (he ▸ List.mem_map_of_mem DirEntry.name hc)

/-! ### Deletion reconciliation -/

theorem foldl_delete_get (fs : List DirEntry) (ps : List String) (st : Store) (q : String) :
    dbGet (ps.foldl (fun s p => if fileExists fs p then s else dbDelete s p) st) q =
      if q ∈ ps ∧ fileExists fs q = false then none else dbGet st q := by
  induction ps generalizing st with
  | nil => simp
  | cons p ps ih =>
    rw [List.foldl_cons]
    by_cases hexp : fileExists fs p
    · rw [if_pos hexp, ih]
      by_cases hc : q ∈ ps ∧ fileExists fs q = false
      · rw [if_pos hc, if_pos ⟨List.mem_cons_of_mem _ hc.1, hc.2⟩]
      · have hn : ¬(q ∈ p :: ps ∧ fileExists fs q = false) := by
          rintro ⟨hm, hf⟩
          rcases List.mem_cons.mp hm with h | h
          · subst h
            rw [hf] at hexp
            simp at hexp
          · exact hc ⟨h, hf⟩
        rw [if_neg hc, if_neg hn]
    · have hexp2 : fileExists fs p = false := by simpa using hexp
      rw [if_neg hexp, ih, dbGet_dbDelete]
      by_cases hq : q = p
      · subst hq
        rw [if_pos rfl,
          if_pos (show q ∈ q :: ps ∧ fileExists fs q = false from
            ⟨List.mem_cons_self _ _, hexp2⟩)]
        by_cases hc : q ∈ ps ∧ fileExists fs q = false
        · rw [if_pos hc]
        · rw [if_neg hc]
      · rw [if_neg hq]
        by_cases hc : q ∈ ps ∧ fileExists fs q = false
        · rw [if_pos hc, if_pos ⟨List.mem_cons_of_mem _ hc.1, hc.2⟩]
        · have hn : ¬(q ∈ p :: ps ∧ fileExists fs q = false) := by
            rintro ⟨hm, hf⟩
            rcases List.mem_cons.mp hm with h | h
            · exact hq h
            · exact hc ⟨h, hf⟩
          rw [if_neg hc, if_neg hn]

theorem cleanup_get (fs : List DirEntry) (store : Store) (p : String) :
    dbGet (cleanup_deleted_files fs store) p =
      if fileExists fs p = true then dbGet store p else none := by
  unfold cleanup_deleted_files
  rw [foldl_delete_get]
  by_cases hex : fileExists fs p
  · rw [if_pos hex, if_neg (by simp [hex])]
  · have hex2 : fileExists fs p = false := by simpa using hex
    rw [if_neg hex]
    by_cases hm : p ∈ store.map (fun e => e.1)
    · rw [if_pos ⟨hm, hex2⟩]
    · rw [if_neg (fun hc => hm hc.1)]
      unfold dbGet
      rw [List.find?_eq_none.mpr]
      · rfl
      · intro x hx
        simp only [beq_iff_eq]
        exact fun hxp => hm (hxp ▸ List.mem_map_of_mem (fun e => e.1) hx)

/-! ### The per-file loop body -/

theorem processFile_eq (env : Env) (acc : Store × Summary) (f : DirEntry) :
    processFile env acc f =
      if uploadsB env acc.1 f then
        (dbPut acc.1 f.name (currentRecordOf f),
          { acc.2 with uploaded := acc.2.uploaded + 1 })
      else if skipsB acc.1 f then (acc.1, { acc.2 with skipped := acc.2.skipped + 1 })
      else (acc.1, { acc.2 with failed := acc.2.failed + 1 }) := by
  cases hr : f.readable <;>
    cases hn : (needs_upload acc.1 f).1 <;>
      cases hs : env.s3Ok f.name <;>
        cases hd : env.dbOk f.name <;>
          simp [processFile, uploadsB, skipsB, upload_to_s3, currentRecordOf,
            needs_upload_snd, hr, hn, hs, hd]

theorem processFile_get_other (env : Env) (acc : Store × Summary) (f : DirEntry)
    (p : String) (hp : f.name ≠ p) :
    dbGet (processFile env acc f).1 p = dbGet acc.1 p := by
  rw [processFile_eq]
  by_cases hu : uploadsB env acc.1 f
  · rw [if_pos hu]
    simp only []
    rw [dbGet_dbPut, if_neg (fun h => hp h.symm)]
  · rw [if_neg hu]
    by_cases hsk : skipsB acc.1 f
    · rw [if_pos hsk]
    · rw [if_neg hsk]

theorem outcomeB_trichotomy (env : Env) (st : Store) (c : DirEntry) :
    (uploadsB env st c = true ∧ skipsB st c = false ∧ failsB env st c = false) ∨
    (uploadsB env st c = false ∧ skipsB st c = true ∧ failsB env st c = false) ∨
    (uploadsB env st c = false ∧ skipsB st c = false ∧ failsB env st c = true) := by
  unfold uploadsB skipsB failsB
  cases c.readable <;> cases (needs_upload st c).1 <;>
    cases env.s3Ok c.name <;> cases env.dbOk c.name <;> simp

theorem uploadsB_congr (env : Env) (st1 st2 : Store) (c : DirEntry)
    (h : dbGet st1 c.name = dbGet st2 c.name) :
    uploadsB env st1 c = uploadsB env st2 c := by
  unfold uploadsB
  rw [needs_upload_congr st1 st2 c h]

theorem skipsB_congr (st1 st2 : Store) (c : DirEntry)
    (h : dbGet st1 c.name = dbGet st2 c.name) :
    skipsB st1 c = skipsB st2 c := by
  unfold skipsB
  rw [needs_upload_congr st1 st2 c h]

theorem failsB_congr (env : Env) (st1 st2 : Store) (c : DirEntry)
    (h : dbGet st1 c.name = dbGet st2 c.name) :
    failsB env st1 c = failsB env st2 c := by
  unfold failsB
  rw [needs_upload_congr st1 st2 c h]

/-! ### The sync loop -/

theorem sync_fold_frame (env : Env) (l : List DirEntry) :
    ∀ (acc : Store × Summary) (p : String), (∀ c ∈ l, c.name ≠ p) →
      dbGet (l.foldl (processFile env) acc).1 p = dbGet acc.1 p := by
  induction l with
  | nil =>
    intro acc p _
    rfl
  | cons c l ih =>
    intro acc p hp
    rw [List.foldl_cons, ih _ p (fun c2 hc2 => hp c2 (List.mem_cons_of_mem _ hc2))]
    exact processFile_get_other env acc c p (hp c (List.mem_cons_self _ _))

theorem sync_fold_counts (env : Env) (l : List DirEntry) :
    ∀ (acc : Store × Summary), (l.map DirEntry.name).Nodup →
      (l.foldl (processFile env) acc).2 =
        ⟨acc.2.uploaded + l.countP (uploadsB env acc.1),
         acc.2.skipped + l.countP (skipsB acc.1),
         acc.2.failed + l.countP (failsB env acc.1)⟩ := by
  induction l with
  | nil =>
    intro acc _
    simp [List.countP_nil]
  | cons c l ih =>
    intro acc hnd
    have hnd2 : (l.map DirEntry.name).Nodup := by
      rw [List.map_cons, List.nodup_cons] at hnd
      exact hnd.2
    have hcnot : c.name ∉ l.map DirEntry.name := by
      rw [List.map_cons, List.nodup_cons] at hnd
      exact hnd.1
    have hget : ∀ c2 ∈ l,
        dbGet (dbPut acc.1 c.name (currentRecordOf c)) c2.name = dbGet acc.1 c2.name := by
      intro c2 hc2
      rw [dbGet_dbPut,
        if_neg (show ¬ c2.name = c.name from
          fun he => hcnot (he ▸ List.mem_map_of_mem DirEntry.name hc2))]
    rw [List.foldl_cons]
    rcases outcomeB_trichotomy env acc.1 c with ⟨h1, h2, h3⟩ | ⟨h1, h2, h3⟩ | ⟨h1, h2, h3⟩
    · rw [processFile_eq, h1, if_pos rfl, ih _ hnd2]
      have hcu : l.countP (uploadsB env (dbPut acc.1 c.name (currentRecordOf c))) =
          l.countP (uploadsB env acc.1) :=
        List.countP_congr (fun c2 hc2 => by rw [uploadsB_congr env _ _ c2 (hget c2 hc2)])
      have hcs : l.countP (skipsB (dbPut acc.1 c.name (currentRecordOf c))) =
          l.countP (skipsB acc.1) :=
        List.countP_congr (fun c2 hc2 => by rw [skipsB_congr _ _ c2 (hget c2 hc2)])
      have hcf : l.countP (failsB env (dbPut acc.1 c.name (currentRecordOf c))) =
          l.countP (failsB env acc.1) :=
        List.countP_congr (fun c2 hc2 => by rw [failsB_congr env _ _ c2 (hget c2 hc2)])
      rw [List.countP_cons, List.countP_cons, List.countP_cons,
        if_pos h1, if_neg (by simp [h2]), if_neg (by simp [h3])]
      simp only [hcu, hcs, hcf, Summary.mk.injEq]
      refine ⟨by omega, by omega, by omega⟩
    · rw [processFile_eq, h1, h2, if_neg (by simp), if_pos rfl, ih _ hnd2]
      rw [List.countP_cons, List.countP_cons, List.countP_cons,
        if_neg (by simp [h1]), if_pos h2, if_neg (by simp [h3])]
      simp only [Summary.mk.injEq]
      refine ⟨by omega, by omega, by omega⟩
    · rw [processFile_eq, h1, h2, if_neg (by simp), if_neg (by simp), ih _ hnd2]
      rw [List.countP_cons, List.countP_cons, List.countP_cons,
        if_neg (by simp [h1]), if_neg (by simp [h2]), if_pos h3]
      simp only [Summary.mk.injEq]
      refine ⟨by omega, by omega, by omega⟩

theorem sync_fold_matches (env : Env) (l : List DirEntry) :
    ∀ (acc : Store × Summary), (l.map DirEntry.name).Nodup →
      (∀ c ∈ l, failsB env acc.1 c = false) →
      ∀ c ∈ l, recordMatches (l.foldl (processFile env) acc).1 c := by
  induction l with
  | nil =>
    intro acc _ _ c hc
    exact absurd hc (List.not_mem_nil c)
  | cons c l ih =>
    intro acc hnd hok c2 hc2
    have hnd2 : (l.map DirEntry.name).Nodup := by
      rw [List.map_cons, List.nodup_cons] at hnd
      exact hnd.2
    have hcnot : c.name ∉ l.map DirEntry.name := by
      rw [List.map_cons, List.nodup_cons] at hnd
      exact hnd.1
    rw [List.foldl_cons]
    rcases List.mem_cons.mp hc2 with rfl | hmem
    · -- the head file: after its own step its record matches, and the rest of
      -- the fold never touches its path
      have hfr : ∀ c3 ∈ l, c3.name ≠ c2.name :=
        fun c3 hc3 => name_ne_of_not_mem_map hcnot hc3
      have hframe := sync_fold_frame env l (processFile env acc c2) c2.name hfr
      have hfail := hok c2 (List.mem_cons_self _ _)
      rcases outcomeB_trichotomy env acc.1 c2 with ⟨h1, h2, h3⟩ | ⟨h1, h2, h3⟩ | ⟨h1, h2, h3⟩
      · refine ⟨currentRecordOf c2, ?_, rfl, rfl, rfl⟩
        rw [hframe, processFile_eq, h1, if_pos rfl]
        simp only []
        rw [dbGet_dbPut, if_pos rfl]
      · have hskip : classify acc.1 c2 = Classification.Unchanged := by
          rw [← needs_upload_false_iff]
          unfold skipsB at h2
          rcases Bool.and_eq_true_iff.mp h2 with ⟨_, hneg⟩
          simpa using hneg
        have hmatch := (classify_eq_Unchanged_iff acc.1 c2).mp hskip
        rcases hmatch with ⟨r, hr, hh, hs, hm⟩
        refine ⟨r, ?_, hh, hs, hm⟩
        rw [hframe, processFile_eq, h1, if_neg (by simp), h2, if_pos rfl]
        exact hr
      · rw [hfail] at h3
        exact absurd h3 (by simp)
    · -- a later file: apply the induction hypothesis to the accumulator after
      -- the head step
      have hok2 : ∀ c3 ∈ l, failsB env (processFile env acc c).1 c3 = false := by
        intro c3 hc3
        rw [failsB_congr env _ acc.1 c3
          (processFile_get_other env acc c c3.name
            (Ne.symm (name_ne_of_not_mem_map hcnot hc3)))]
        exact hok c3 (List.mem_cons_of_mem _ hc3)
      exact ih (processFile env acc c) hnd2 hok2 c2 hmem

theorem sync_fold_get (env : Env) (l : List DirEntry) :
    ∀ (acc : Store × Summary), (l.map DirEntry.name).Nodup → ∀ p,
      dbGet (l.foldl (processFile env) acc).1 p = dbGet acc.1 p ∨
      ∃ c, c ∈ l ∧ c.name = p ∧ uploadsB env acc.1 c = true ∧
        dbGet (l.foldl (processFile env) acc).1 p = some (currentRecordOf c) := by
  induction l with
  | nil =>
    intro acc _ p
    exact Or.inl rfl
  | cons c l ih =>
    intro acc hnd p
    have hnd2 : (l.map DirEntry.name).Nodup := by
      rw [List.map_cons, List.nodup_cons] at hnd
      exact hnd.2
    have hcnot : c.name ∉ l.map DirEntry.name := by
      rw [List.map_cons, List.nodup_cons] at hnd
      exact hnd.1
    rw [List.foldl_cons]
    by_cases hcp : c.name = p
    · subst hcp
      have hfr : ∀ c3 ∈ l, c3.name ≠ c.name :=
        fun c3 hc3 => name_ne_of_not_mem_map hcnot hc3
      have hframe := sync_fold_frame env l (processFile env acc c) c.name hfr
      rcases outcomeB_trichotomy env acc.1 c with ⟨h1, h2, h3⟩ | ⟨h1, h2, h3⟩ | ⟨h1, h2, h3⟩
      · refine Or.inr ⟨c, List.mem_cons_self _ _, rfl, h1, ?_⟩
        rw [hframe, processFile_eq, h1, if_pos rfl]
        simp only []
        rw [dbGet_dbPut, if_pos rfl]
      · refine Or.inl ?_
        rw [hframe, processFile_eq, h1, if_neg (by simp), h2, if_pos rfl]
      · refine Or.inl ?_
        rw [hframe, processFile_eq, h1, if_neg (by simp), h2, if_neg (by simp)]
    · have hd1 : dbGet (processFile env acc c).1 p = dbGet acc.1 p :=
        processFile_get_other env acc c p hcp
      rcases ih (processFile env acc c) hnd2 p with h | ⟨c2, hc2, hc2p, hup, hres⟩
      · exact Or.inl (by rw [h, hd1])
      · refine Or.inr ⟨c2, List.mem_cons_of_mem _ hc2, hc2p, ?_, hres⟩
        rw [← hup]
        apply uploadsB_congr
        rw [processFile_get_other env acc c c2.name]
        intro he
        exact hcp (he.trans hc2p)

theorem classify_some_spec (st : Store) (f : DirEntry) (r : FileRecord)
    (hr : dbGet st f.name = some r) :
    classify st f =
      (if get_file_hash f.content ≠ r.file_hash ∨ f.size ≠ r.file_size ∨
          f.mtime ≠ r.last_modified then Classification.Modified
       else Classification.Unchanged) := by
  unfold classify
  rw [hr]

theorem sync_fold_sum (env : Env) (l : List DirEntry) :
    ∀ acc : Store × Summary,
      (l.foldl (processFile env) acc).2.uploaded +
          (l.foldl (processFile env) acc).2.skipped +
          (l.foldl (processFile env) acc).2.failed =
        acc.2.uploaded + acc.2.skipped + acc.2.failed + l.length := by
  induction l with
  | nil =>
    intro acc
    simp
  | cons c l ih =>
    intro acc
    rw [List.foldl_cons, ih]
    rcases outcomeB_trichotomy env acc.1 c with ⟨h1, h2, h3⟩ | ⟨h1, h2, h3⟩ | ⟨h1, h2, h3⟩
    · rw [processFile_eq, h1, if_pos rfl]
      simp only [List.length_cons]
      omega
    · rw [processFile_eq, h1, h2, if_neg (by simp), if_pos rfl]
      simp only [List.length_cons]
      omega
    · rw [processFile_eq, h1, h2, if_neg (by simp), if_neg (by simp)]
      simp only [List.length_cons]
      omega

/-! ### The claims -/

/-- Claim C1: classification policy. With no stored record a file is New and
needs upload; the current hash is always computed (`needs_upload` returns it
in every branch); with a stored record the file is Modified exactly when the
hash, size or modification time differs, Unchanged exactly when all three
agree; and in particular a hash difference alone — size and mtime equal to
the stored values — still yields Modified. -/
theorem C1_classification_policy (store : Store) (f : DirEntry) :
    ((needs_upload store f).2 = get_file_hash f.content) ∧
    ((needs_upload store f).1 = false ↔ classify store f = Classification.Unchanged) ∧
    (dbGet store f.name = none → classify store f = Classification.New) ∧
    (∀ r, dbGet store f.name = some r →
      ((classify store f = Classification.Modified ↔
        (get_file_hash f.content ≠ r.file_hash ∨ f.size ≠ r.file_size ∨
          f.mtime ≠ r.last_modified)) ∧
       (classify store f = Classification.Unchanged ↔
        (get_file_hash f.content = r.file_hash ∧ f.size = r.file_size ∧
          f.mtime = r.last_modified)) ∧
       (get_file_hash f.content ≠ r.file_hash → f.size = r.file_size →
          f.mtime = r.last_modified → classify store f = Classification.Modified))) := by
  refine ⟨needs_upload_snd store f, needs_upload_false_iff store f,
    fun h => (classify_eq_New_iff store f).mpr h, fun r hr => ?_⟩
  have hspec := classify_some_spec store f r hr
  by_cases hd : get_file_hash f.content ≠ r.file_hash ∨ f.size ≠ r.file_size ∨
      f.mtime ≠ r.last_modified
  · rw [if_pos hd] at hspec
    refine ⟨⟨fun _ => hd, fun _ => hspec⟩, ?_, fun _ _ _ => hspec⟩
    constructor
    · intro hcon
      rw [hspec] at hcon
      exact absurd hcon (by simp)
    · rintro ⟨h1, h2, h3⟩
      rcases hd with h | h | h
      · exact absurd h1 h
      · exact absurd h2 h
      · exact absurd h3 h
  · rw [if_neg hd] at hspec
    push_neg at hd
    refine ⟨?_, ⟨fun _ => ⟨hd.1, hd.2.1, hd.2.2⟩, fun _ => hspec⟩, fun hh _ _ => absurd hh ?_⟩
    · constructor
      · intro hcon
        rw [hspec] at hcon
        exact absurd hcon (by simp)
      · intro hdd
        rcases hdd with h | h | h
        · exact absurd hd.1 h
        · exact absurd hd.2.1 h
        · exact absurd hd.2.2 h
    · intro hne
      exact hne hd.1

/-- Witness for C1: `a.jpg` whose stored hash differs while size and mtime
agree is classified Modified. -/
theorem C1_witness : classify exStoreA exA = Classification.Modified :=
  ((C1_classification_policy exStoreA exA).2.2.2 exRecA (by decide)).2.2
    (by decide) (by decide) (by decide)

/-- Claim C6: the process exits 0 iff setup succeeded, the user did not
interrupt, and the pass finished with zero failed files; it exits 1 in every
other case (some file failed, setup failure, or interruption); no other exit
status occurs. -/
theorem C6_exit_status (setupOk interrupted : Bool) (env : Env)
    (fs : List DirEntry) (store : Store) :
    (mainExit setupOk interrupted env fs store = 0 ↔
      (setupOk = true ∧ interrupted = false ∧ (run_pass env fs store).2.failed = 0)) ∧
    ((0 < (run_pass env fs store).2.failed ∨ setupOk = false ∨ interrupted = true) →
      mainExit setupOk interrupted env fs store = 1) := by
  unfold mainExit
  cases setupOk <;> cases interrupted <;>
    by_cases hf : 0 < (run_pass env fs store).2.failed <;>
      simp [hf] <;> omega

/-- Witness for C6: a clean pass over two fresh files exits 0. -/
theorem C6_witness : mainExit true false envAllOk exFs [] = 0 :=
  (C6_exit_status true false envAllOk exFs []).1.mpr ⟨rfl, rfl, by decide⟩

/-- Claim C7: the candidates are exactly the regular files of the directory
whose Python-lowercased suffix is `.jpg` or `.jpeg`, and they are processed
in lexicographically sorted name order (`nameLe` is Python's code-point
string comparison). -/
theorem C7_candidate_enumeration (fs : List DirEntry) (e : DirEntry) :
    (e ∈ get_image_files fs ↔
      e ∈ fs ∧ e.is_file = true ∧
        (strLower (pySuffix e.name) = ".jpg" ∨ strLower (pySuffix e.name) = ".jpeg")) ∧
    List.Sorted (fun a b : DirEntry => nameLe a.name b.name = true) (get_image_files fs) :=
  ⟨mem_get_image_files fs e, get_image_files_sorted fs⟩

/-- Witness for C7: `a.jpg` is enumerated from the two-file directory. -/
theorem C7_witness : exA ∈ get_image_files exFs :=
  (C7_candidate_enumeration exFs exA).1.mpr ⟨by decide, by decide, Or.inl (by decide)⟩

/-- Claim C9: the digest depends only on the byte content — two files with
equal bytes hash equal regardless of name or metadata — and the chunked
absorption is independent of the chunk size (any positive read size gives
the digest of the 4096-byte reads of the source). -/
theorem C9_hash_deterministic (f g : DirEntry) (n : Nat) (hn : 0 < n)
    (hfg : f.content = g.content) :
    get_file_hash f.content = get_file_hash g.content ∧
    (chunksOf n f.content).foldl md5Update [] =
      (chunksOf 4096 f.content).foldl md5Update [] := by
  constructor
  · rw [hfg]
  · rw [chunksOf_foldl_eq n hn f.content, chunksOf_foldl_eq 4096 (by norm_num) f.content]

/-- Witness for C9: two entries with the same bytes but different names and
metadata hash identically, and 1-byte reads give the 4096-byte-read digest. -/
theorem C9_witness :
    get_file_hash exA.content =
        get_file_hash { exBad with content := exA.content }.content ∧
    (chunksOf 1 exA.content).foldl md5Update [] =
      (chunksOf 4096 exA.content).foldl md5Update [] :=
  C9_hash_deterministic exA { exBad with content := exA.content } 1 (by decide) rfl

/-- Claim C10: each candidate is counted exactly once, so the three counters
of a pass partition the candidate list: uploaded + skipped + failed equals
the number of enumerated files (the counters are `Nat`, hence non-negative). -/
theorem C10_counter_partition (env : Env) (fs : List DirEntry) (store : Store) :
    (run_pass env fs store).2.uploaded + (run_pass env fs store).2.skipped +
        (run_pass env fs store).2.failed = (get_image_files fs).length := by
  have h := sync_fold_sum env (get_image_files fs)
    (cleanup_deleted_files fs store, ⟨0, 0, 0⟩)
  simpa using h

/-- Claim C3: `main` performs the reconciliation before the sync (the sync
consumes the reconciled store), reconciliation removes every record whose
path is absent from the directory, and a file reappearing later under such a
path is classified New in the next pass, not Modified. -/
theorem C3_deletion_reconciliation (env : Env) (fs fs2 : List DirEntry)
    (store : Store) (p : String) (hgone : fileExists fs p = false) :
    run_pass env fs store = sync_images env fs (cleanup_deleted_files fs store) ∧
    dbGet (cleanup_deleted_files fs store) p = none ∧
    (∀ c : DirEntry, c.name = p →
      classify (cleanup_deleted_files fs2 (run_pass env fs store).1) c =
        Classification.New) := by
  have hclean : dbGet (cleanup_deleted_files fs store) p = none := by
    rw [cleanup_get, hgone]
    simp
  refine ⟨rfl, hclean, fun c hc => ?_⟩
  rw [classify_eq_New_iff]
  have hner : ∀ c2 ∈ get_image_files fs, c2.name ≠ p := by
    intro c2 hc2 he
    have hmem : c2 ∈ fs := ((mem_get_image_files fs c2).mp hc2).1
    have hex := fileExists_of_mem hmem
    rw [he, hgone] at hex
    exact absurd hex (by simp)
  have hrp : run_pass env fs store =
      (get_image_files fs).foldl (processFile env)
        (cleanup_deleted_files fs store, ⟨0, 0, 0⟩) := rfl
  have hstore1 : dbGet (run_pass env fs store).1 p = none := by
    rw [hrp, sync_fold_frame env _ _ p hner]
    exact hclean
  rw [cleanup_get]
  by_cases hex2 : fileExists fs2 c.name
  · rw [if_pos hex2, hc, hstore1]
  · rw [if_neg hex2]

/-- Witness for C3: the stale `c.jpg` record is gone after a pass over a
directory without it, and the reappearing `c.jpg` is classified New. -/
theorem C3_witness :
    classify (cleanup_deleted_files exFs2 (run_pass envAllOk exFs exStoreC).1) exC =
      Classification.New :=
  (C3_deletion_reconciliation envAllOk exFs exFs2 exStoreC "c.jpg" (by decide)).2.2
    exC (by decide)

/-- Claim C8: frame condition for the state store. Over a whole pass, the
record of any path either stays exactly what it was, or is deleted because
the path no longer exists in the directory, or is created/replaced with the
file's current fingerprint by a successful upload of a candidate with that
path; nothing else ever changes a record. -/
theorem C8_record_frame (env : Env) (fs : List DirEntry) (store : Store)
    (hnd : ((get_image_files fs).map DirEntry.name).Nodup) (p : String) :
    (dbGet (run_pass env fs store).1 p = dbGet store p) ∨
    (fileExists fs p = false ∧ dbGet (run_pass env fs store).1 p = none) ∨
    (∃ c, c ∈ get_image_files fs ∧ c.name = p ∧
      uploadsB env (cleanup_deleted_files fs store) c = true ∧
      dbGet (run_pass env fs store).1 p = some (currentRecordOf c)) := by
  have hrp : run_pass env fs store =
      (get_image_files fs).foldl (processFile env)
        (cleanup_deleted_files fs store, ⟨0, 0, 0⟩) := rfl
  by_cases hex : fileExists fs p
  · have hc : dbGet (cleanup_deleted_files fs store) p = dbGet store p := by
      rw [cleanup_get, if_pos hex]
    rcases sync_fold_get env (get_image_files fs)
        (cleanup_deleted_files fs store, ⟨0, 0, 0⟩) hnd p with h | ⟨c, hcm, hcp, hup, hres⟩
    · left
      rw [hrp, h]
      exact hc
    · right
      right
      exact ⟨c, hcm, hcp, hup, by rw [hrp]; exact hres⟩
  · right
    left
    have hex2 : fileExists fs p = false := by simpa using hex
    refine ⟨hex2, ?_⟩
    have h0 : dbGet (cleanup_deleted_files fs store) p = none := by
      rw [cleanup_get, hex2]
      simp
    have hner : ∀ c2 ∈ get_image_files fs, c2.name ≠ p := by
      intro c2 hc2 he
      have hmem : c2 ∈ fs := ((mem_get_image_files fs c2).mp hc2).1
      have hexc := fileExists_of_mem hmem
      rw [he, hex2] at hexc
      exact absurd hexc (by simp)
    rw [hrp, sync_fold_frame env _ _ p hner]
    exact h0

/-- Witness for C8 at a concrete pass and path. -/
theorem C8_witness :
    (dbGet (run_pass envAllOk exFs []).1 "a.jpg" = dbGet ([] : Store) "a.jpg") ∨
    (fileExists exFs "a.jpg" = false ∧ dbGet (run_pass envAllOk exFs []).1 "a.jpg" = none) ∨
    (∃ c, c ∈ get_image_files exFs ∧ c.name = "a.jpg" ∧
      uploadsB envAllOk (cleanup_deleted_files exFs []) c = true ∧
      dbGet (run_pass envAllOk exFs []).1 "a.jpg" = some (currentRecordOf c)) :=
  C8_record_frame envAllOk exFs [] (by decide) "a.jpg"

theorem pass_failed_file (env : Env) (fs : List DirEntry) (store : Store)
    (c : DirEntry) (hnd : ((get_image_files fs).map DirEntry.name).Nodup)
    (hc : c ∈ get_image_files fs)
    (hfB : failsB env (cleanup_deleted_files fs store) c = true) :
    dbGet (run_pass env fs store).1 c.name =
      dbGet (cleanup_deleted_files fs store) c.name ∧
    1 ≤ (run_pass env fs store).2.failed ∧
    (run_pass env fs store).2.uploaded + (run_pass env fs store).2.skipped +
      (run_pass env fs store).2.failed = (get_image_files fs).length := by
  have hrp : run_pass env fs store =
      (get_image_files fs).foldl (processFile env)
        (cleanup_deleted_files fs store, ⟨0, 0, 0⟩) := rfl
  refine ⟨?_, ?_, ?_⟩
  · rcases sync_fold_get env (get_image_files fs)
        (cleanup_deleted_files fs store, ⟨0, 0, 0⟩) hnd c.name with h | ⟨c2, hc2, hcp, hup, hres⟩
    · rw [hrp, h]
    · have hceq : c2 = c := List.inj_on_of_nodup_map hnd hc2 hc hcp
      subst hceq
      have hup2 : uploadsB env (cleanup_deleted_files fs store) c2 = true := hup
      exfalso
      rcases outcomeB_trichotomy env (cleanup_deleted_files fs store) c2 with
        ⟨h1, h2, h3⟩ | ⟨h1, h2, h3⟩ | ⟨h1, h2, h3⟩
      · rw [hfB] at h3
        exact absurd h3 (by simp)
      · rw [hup2] at h1
        exact absurd h1 (by simp)
      · rw [hup2] at h1
        exact absurd h1 (by simp)
  · have hcounts := sync_fold_counts env (get_image_files fs)
      (cleanup_deleted_files fs store, ⟨0, 0, 0⟩) hnd
    rw [hrp, hcounts]
    have hfB2 : failsB env (cleanup_deleted_files fs store, (⟨0, 0, 0⟩ : Summary)).1 c = true := hfB
    have hpos : 0 < (get_image_files fs).countP
        (failsB env (cleanup_deleted_files fs store, (⟨0, 0, 0⟩ : Summary)).1) :=
      List.countP_pos_iff.mpr ⟨c, hc, hfB2⟩
    simpa using hpos
  · have hsum := sync_fold_sum env (get_image_files fs)
      (cleanup_deleted_files fs store, ⟨0, 0, 0⟩)
    rw [hrp]
    simpa using hsum

/-- Claim C4: a candidate whose upload fails — transfer error or unreadable
file during hashing — contributes to failed_count, leaves the state store
untouched at its path, and the pass still processes every other candidate
(the counters still partition the full candidate list). -/
theorem C4_failure_isolation (env : Env) (fs : List DirEntry) (store : Store)
    (c : DirEntry) (hnd : ((get_image_files fs).map DirEntry.name).Nodup)
    (hc : c ∈ get_image_files fs)
    (hfail : c.readable = false ∨
      ((needs_upload (cleanup_deleted_files fs store) c).1 = true ∧
        env.s3Ok c.name = false)) :
    dbGet (run_pass env fs store).1 c.name =
      dbGet (cleanup_deleted_files fs store) c.name ∧
    1 ≤ (run_pass env fs store).2.failed ∧
    (run_pass env fs store).2.uploaded + (run_pass env fs store).2.skipped +
      (run_pass env fs store).2.failed = (get_image_files fs).length := by
  apply pass_failed_file env fs store c hnd hc
  unfold failsB
  rcases hfail with h | ⟨h1, h2⟩
  · rw [h]
    rfl
  · rw [h1, h2]
    simp

/-- Witness for C4: the unreadable `bad.jpg` fails while `a.jpg` is still
processed (the counters cover both candidates). -/
theorem C4_witness :
    dbGet (run_pass envAllOk exFs3 []).1 exBad.name =
      dbGet (cleanup_deleted_files exFs3 []) exBad.name ∧
    1 ≤ (run_pass envAllOk exFs3 []).2.failed ∧
    (run_pass envAllOk exFs3 []).2.uploaded + (run_pass envAllOk exFs3 []).2.skipped +
      (run_pass envAllOk exFs3 []).2.failed = (get_image_files exFs3).length :=
  C4_failure_isolation envAllOk exFs3 [] exBad (by decide) (by decide)
    (Or.inl (by decide))

/-- Counterexample to claim C5 as stated: with the state-store
insert-or-replace failing for `a.jpg` after its successful transfer, the
pass does not abort — it completes, counts `a.jpg` as a per-file failure
(summary `{uploaded 1, skipped 0, failed 1}`), writes no record for
`a.jpg`, and still uploads and records `b.jpg`. -/
theorem C5_counterexample :
    (run_pass envDbFailA exFs []).2 = ⟨1, 0, 1⟩ ∧
    dbGet (run_pass envDbFailA exFs []).1 "a.jpg" = none ∧
    dbGet (run_pass envDbFailA exFs []).1 "b.jpg" = some (currentRecordOf exB) := by
  refine ⟨by decide, by decide, by decide⟩

/-- Claim C5 as amended: a durable-storage failure in the insert-or-replace
after a successful upload is caught inside `upload_to_s3` and absorbed as a
per-file failure — failed_count is incremented, no record is written for
that path, and the pass continues over the remaining candidates — rather
than propagating and aborting the pass. (Errors in `cleanup_deleted_files`,
by contrast, are outside any handler in the pass.) -/
theorem C5_store_error_absorbed (env : Env) (fs : List DirEntry) (store : Store)
    (c : DirEntry) (hnd : ((get_image_files fs).map DirEntry.name).Nodup)
    (hc : c ∈ get_image_files fs) (hr : c.readable = true)
    (hneeds : (needs_upload (cleanup_deleted_files fs store) c).1 = true)
    (hs3 : env.s3Ok c.name = true) (hdb : env.dbOk c.name = false) :
    dbGet (run_pass env fs store).1 c.name =
      dbGet (cleanup_deleted_files fs store) c.name ∧
    1 ≤ (run_pass env fs store).2.failed ∧
    (run_pass env fs store).2.uploaded + (run_pass env fs store).2.skipped +
      (run_pass env fs store).2.failed = (get_image_files fs).length := by
  apply pass_failed_file env fs store c hnd hc
  unfold failsB
  rw [hr, hneeds, hs3, hdb]
  rfl

/-- Witness for the amended C5: new file `a.jpg`, transfer succeeds, the
insert fails; the pass absorbs it. -/
theorem C5_witness :
    dbGet (run_pass envDbFailA exFs []).1 exA.name =
      dbGet (cleanup_deleted_files exFs []) exA.name ∧
    1 ≤ (run_pass envDbFailA exFs []).2.failed ∧
    (run_pass envDbFailA exFs []).2.uploaded + (run_pass envDbFailA exFs []).2.skipped +
      (run_pass envDbFailA exFs []).2.failed = (get_image_files exFs).length :=
  C5_store_error_absorbed envDbFailA exFs [] exA (by decide) (by decide)
    (by decide) (by decide) (by decide) (by decide)

/-- Claim C2: idempotence. If a pass finishes with zero failures, then in an
immediately following pass over the unchanged directory every candidate is
classified Unchanged, and the second pass's summary is
`{uploaded 0, skipped (number of candidates), failed 0}` — zero uploads. -/
theorem C2_pass_idempotent (env env2 : Env) (fs : List DirEntry) (store : Store)
    (hnd : ((get_image_files fs).map DirEntry.name).Nodup)
    (hf : (run_pass env fs store).2.failed = 0) :
    (∀ c ∈ get_image_files fs,
      classify (cleanup_deleted_files fs (run_pass env fs store).1) c =
        Classification.Unchanged) ∧
    (run_pass env2 fs (run_pass env fs store).1).2 =
      ⟨0, (get_image_files fs).length, 0⟩ := by
  have hrp : run_pass env fs store =
      (get_image_files fs).foldl (processFile env)
        (cleanup_deleted_files fs store, ⟨0, 0, 0⟩) := rfl
  have hcounts := sync_fold_counts env (get_image_files fs)
      (cleanup_deleted_files fs store, ⟨0, 0, 0⟩) hnd
  have hfails : ∀ c ∈ get_image_files fs,
      failsB env (cleanup_deleted_files fs store, (⟨0, 0, 0⟩ : Summary)).1 c = false := by
    intro c hc
    have h0 : (get_image_files fs).countP
        (failsB env (cleanup_deleted_files fs store, (⟨0, 0, 0⟩ : Summary)).1) = 0 := by
      rw [hrp, hcounts] at hf
      simpa using hf
    have h1 := List.countP_eq_zero.mp h0 c hc
    simpa using h1
  have hmatch := sync_fold_matches env (get_image_files fs)
      (cleanup_deleted_files fs store, ⟨0, 0, 0⟩) hnd hfails
  have hcls : ∀ c ∈ get_image_files fs,
      classify (cleanup_deleted_files fs (run_pass env fs store).1) c =
        Classification.Unchanged := by
    intro c hc
    rw [classify_eq_Unchanged_iff]
    obtain ⟨r, hr, hh, hs, hm⟩ := hmatch c hc
    refine ⟨r, ?_, hh, hs, hm⟩
    rw [cleanup_get, if_pos (fileExists_of_mem ((mem_get_image_files fs c).mp hc).1)]
    rw [hrp]
    exact hr
  refine ⟨hcls, ?_⟩
  have hrp2 : run_pass env2 fs (run_pass env fs store).1 =
      (get_image_files fs).foldl (processFile env2)
        (cleanup_deleted_files fs (run_pass env fs store).1, ⟨0, 0, 0⟩) := rfl
  have hcounts2 := sync_fold_counts env2 (get_image_files fs)
      (cleanup_deleted_files fs (run_pass env fs store).1, ⟨0, 0, 0⟩) hnd
  rw [hrp2, hcounts2]
  have hread : ∀ c ∈ get_image_files fs, c.readable = true := by
    intro c hc
    have h1 := hfails c hc
    unfold failsB at h1
    rcases Bool.or_eq_false_iff.mp h1 with ⟨h2, _⟩
    simpa using h2
  have hneeds : ∀ c ∈ get_image_files fs,
      (needs_upload (cleanup_deleted_files fs (run_pass env fs store).1) c).1 = false := by
    intro c hc
    rw [needs_upload_false_iff]
    exact hcls c hc
  have hcu : (get_image_files fs).countP
      (uploadsB env2 (cleanup_deleted_files fs (run_pass env fs store).1,
        (⟨0, 0, 0⟩ : Summary)).1) = 0 := by
    rw [List.countP_eq_zero]
    intro c hc hcontra
    unfold uploadsB at hcontra
    rw [hneeds c hc] at hcontra
    simp at hcontra
  have hcs : (get_image_files fs).countP
      (skipsB (cleanup_deleted_files fs (run_pass env fs store).1,
        (⟨0, 0, 0⟩ : Summary)).1) = (get_image_files fs).length := by
    rw [List.countP_eq_length]
    intro c hc
    have h1 : skipsB (cleanup_deleted_files fs (run_pass env fs store).1) c = true := by
      unfold skipsB
      rw [hread c hc, hneeds c hc]
      rfl
    exact h1
  have hcf : (get_image_files fs).countP
      (failsB env2 (cleanup_deleted_files fs (run_pass env fs store).1,
        (⟨0, 0, 0⟩ : Summary)).1) = 0 := by
    rw [List.countP_eq_zero]
    intro c hc hcontra
    unfold failsB at hcontra
    rw [hread c hc, hneeds c hc] at hcontra
    simp at hcontra
  rw [hcu, hcs, hcf]
  simp

/-- Witness for C2: after a clean first pass over two fresh files, the
second pass uploads nothing and skips both. -/
theorem C2_witness :
    (run_pass envAllOk exFs (run_pass envAllOk exFs []).1).2 =
      ⟨0, (get_image_files exFs).length, 0⟩ :=
  (C2_pass_idempotent envAllOk envAllOk exFs [] (by decide) (by decide)).2

end HfxSync
